import Mathlib

/-!
Verification of the `dyc` DynamoDB convenience client (package `dyc`).

This file gives a shallow embedding, in Lean, of the orchestration core of the
repository — batch writing with unprocessed-item retry (`BatchWriter`,
`ChunkWriteRequests`), the limit-capped page iterators (`ScanIterator`,
`ScanIteratorV2`, `QueryIterator`, `QueryIteratorV2`, `limitModifier`), the
key-field extraction used by the deleters (`extractFields`, `FieldsExtractor`,
`QueryDeleter`/`ScanDeleter`), and the structural facts about the copy/scan
pipelines (`CopyTable`, `ParallelScanIterator`, `parallelScanWorker`,
`onCopyData`) — and proves the spec's testable properties against it.

Rows and DynamoDB attribute maps are modelled as association lists; Go `int`
arithmetic is modelled with `Int`; fallible calls return `Option`/`Except`.
-/

namespace Dyc

/-- DynamoDB attribute values (`dynamodb.AttributeValue`), restricted to the
scalar cases the claims exercise. -/
inductive Attr
  | s (v : String)
  | n (v : Int)
deriving DecidableEq, Repr

/-- A DynamoDB item / key map (`map[string]*dynamodb.AttributeValue`),
modelled as an association list from column name to attribute value. -/
abbrev Row := List (String × Attr)

/-- Lookup of a field in a row (Go map indexing `data[field]`, first match). -/
def lookupField : Row → String → Option Attr
  | [], _ => none
  | (k, v) :: rest, f => if k = f then some v else lookupField rest f

/-- Embedding of `extractFields` (extractor.go): copies into the result exactly
the requested fields that are present in `data`; missing fields are silently
skipped (`continue`). -/
def extractFields (data : Row) (fields : List String) : Row :=
  fields.filterMap fun f => (lookupField data f).map fun v => (f, v)

/-- Embedding of `FieldsExtractor` (extractor.go): a `KeyExtractor` closing
over the requested field names. -/
def fieldsExtractor (fields : List String) : Row → Row :=
  fun m => extractFields m fields

/-- A DynamoDB write request (`dynamodb.WriteRequest`): either a put of a full
item or a delete addressed by a key map. -/
inductive WriteReq
  | put (item : Row)
  | delete (key : Row)
deriving DecidableEq, Repr

/-- Iteration core of `ChunkWriteRequests` (client.go): the Go loop walks the
slice in steps of 25 (`for i := 0; i < total; i += chunkSize`), appending
`requests[i:min(i+25,total)]` each round; equivalently, repeatedly take 25 and
drop 25.  `fuel` bounds the number of rounds; `requests.length` rounds always
suffice. -/
def chunkGo (fuel : Nat) (l : List α) : List (List α) :=
  match fuel, l with
  | 0, _ => []
  | _, [] => []
  | fuel + 1, l => l.take 25 :: chunkGo fuel (l.drop 25)

/-- Embedding of `ChunkWriteRequests` (client.go): chunks write requests into
batches of at most 25, preserving order. -/
def chunkWriteRequests (l : List α) : List (List α) :=
  chunkGo l.length l

/-- Per-page request construction shared verbatim by `QueryDeleter` and
`ScanDeleter` (client.go): one delete request per item of the page, keyed by
whatever the key extractor returns for that item. -/
def deleterPageRequests (keyFn : Row → Row) (items : List Row) : List WriteReq :=
  items.map fun attrs => WriteReq.delete (keyFn attrs)

/-- How `parallelScanWorker` (client.go) invokes the caller's page callback:
`if noLock { e = fn(out) } else { mu.Lock(); e = fn(out); mu.Unlock() }`. -/
inductive CallbackMode
  | withMutex
  | withoutMutex
deriving DecidableEq, Repr

/-- The callback invocation mode `parallelScanWorker` selects from its
`noLock` parameter. -/
def parallelScanCallbackMode (noLock : Bool) : CallbackMode :=
  if noLock then CallbackMode.withoutMutex else CallbackMode.withMutex

/-- The literal `noLock` argument `CopyTable` (client.go) passes to
`ParallelScanIterator` for its producer scan (the trailing `true` of the
call `c.ParallelScanIterator(ctx, …, workers, func…, true)`). -/
def copyTableNoLockArg : Bool := true

/-- Shape of a `select` statement performing an error-channel send: with a
`default` case (non-blocking, discard-on-full) or without one (the send can
only be abandoned by context cancellation). -/
inductive SendStyle
  | withDefault
  | withoutDefault
deriving DecidableEq, Repr

/-- Capacity of the error channel created by `ParallelScanIterator`
(client.go: `errChan := make(chan error, 1)`). -/
def errChanCapParallelScan (_workers : Nat) : Nat := 1

/-- Capacity of the error channel created by `CopyTable`
(client.go: `errChan := make(chan error, workers)`). -/
def errChanCapCopyTable (workers : Nat) : Nat := workers

/-- Error send in `onCopyData` (client.go): `select` over `ctx.Done()` and
`errChan <- err` with no `default` case. -/
def onCopyDataErrSendStyle : SendStyle := SendStyle.withoutDefault

/-- Error send for a callback error inside `parallelScanWorker` (client.go):
`select` over `ctx.Done()`, `errChan <- e` and a `default` case. -/
def parallelScanWorkerCallbackErrSendStyle : SendStyle := SendStyle.withDefault

/-- Error send for an iterator error at the end of `parallelScanWorker`
(client.go): `select` over `ctx.Done()`, `errChan <- err` and `default`. -/
def parallelScanWorkerIterErrSendStyle : SendStyle := SendStyle.withDefault

/-- Error send of the producer goroutine in `CopyTable` (client.go): `select`
over `ctx.Done()` and `errChan <- err` with no `default` case. -/
def copyTableProducerErrSendStyle : SendStyle := SendStyle.withoutDefault

/-- Whether an error-channel send of the given select shape leaves the sender
blocked, as a function of the channel being full and the context being done:
with a `default` case the send never blocks (the error is discarded when the
channel is full); without one the sender remains blocked exactly when the
channel is full and the context is not yet done. -/
def sendBlocks (style : SendStyle) (chanFull ctxDone : Bool) : Bool :=
  match style with
  | SendStyle.withDefault => false
  | SendStyle.withoutDefault => chanFull && !ctxDone

/-- Errors visible to the Go code: a store/transport error (tagged by a code),
or the sentinel produced when the recursion bound of the embedded
`BatchWriter` is exhausted (never reached in the modelled scenarios). -/
inductive GoErr
  | transport (code : Nat)
  | outOfFuel
deriving DecidableEq, Repr

/-- A batch-write store oracle (`DynamoDB.BatchWriteItemWithContext`): from its
state, the table name and the submitted chunk it produces a new state and
either an error or the response's `UnprocessedItems` map, modelled as an
association list from table name to unprocessed requests. -/
def Store (σ : Type) :=
  σ → String → List WriteReq → σ × Except GoErr (List (String × List WriteReq))

/-- Loop of `BatchWriter` over `out.UnprocessedItems` (client.go:
`for table, reqs := range out.UnprocessedItems`): recursively re-submits each
group via `recurse`, accumulating the written count, aborting on error. -/
def unprocLoop (recurse : σ → String → List WriteReq → σ × Int × Option GoErr) :
    σ → Int → List (String × List WriteReq) → σ × Int × Option GoErr
  | s, acc, [] => (s, acc, none)
  | s, acc, (tbl, reqs) :: rest =>
    match recurse s tbl reqs with
    | (s1, total, err) =>
      match err with
      | some e => (s1, acc + total, some e)
      | none => unprocLoop recurse s1 (acc + total) rest

/-- Loop of `BatchWriter` over the chunks (client.go: `for _, chunk := range
chunks`): one store call per chunk; on success the written count grows by
`len(chunk) - len(out.UnprocessedItems)` — note the subtrahend is the size of
the map, i.e. the number of distinct tables with unprocessed items, exactly as
in the source — then the unprocessed groups are recursively re-submitted. -/
def chunksLoop (store : Store σ) (table : String)
    (recurse : σ → String → List WriteReq → σ × Int × Option GoErr) :
    σ → Int → List (List WriteReq) → σ × Int × Option GoErr
  | s, acc, [] => (s, acc, none)
  | s, acc, chunk :: rest =>
    match store s table chunk with
    | (s1, Except.error e) => (s1, acc, some e)
    | (s1, Except.ok unprocessed) =>
      let acc1 := acc + (chunk.length : Int) - (unprocessed.length : Int)
      match unprocLoop recurse s1 acc1 unprocessed with
      | (s2, acc2, some e) => (s2, acc2, some e)
      | (s2, acc2, none) => chunksLoop store table recurse s2 acc2 rest

/-- Embedding of `BatchWriter` (client.go): chunks the requests, issues one
batch-write store call per chunk, recursively re-submits unprocessed groups,
and accumulates the written count.  `fuel` bounds the recursion depth (the Go
recursion is unbounded); all modelled scenarios stay well inside it and the
`outOfFuel` sentinel never arises there. -/
def batchWriter (store : Store σ) :
    Nat → σ → String → List WriteReq → σ × Int × Option GoErr
  | 0, s, _, _ => (s, 0, some GoErr.outOfFuel)
  | fuel + 1, s, table, requests =>
    chunksLoop store table (batchWriter store fuel) s 0 (chunkWriteRequests requests)

/-- Store stub for the unprocessed-retry scenario: the state counts the
batch-write calls made so far; the first call reports the first `k` submitted
requests as unprocessed (for the same table), every later call reports none,
and no call fails. -/
def stubStore (k : Nat) : Store Nat := fun calls table chunk =>
  (calls + 1,
    Except.ok (if calls = 0 ∧ k ≠ 0 then [(table, chunk.take k)] else []))

/-- A scan (or query) page as the SDK hands it to the page callback
(`dynamodb.ScanOutput` / `dynamodb.QueryOutput`, restricted to the fields the
iterators touch): the page's items and its `LastEvaluatedKey`. -/
structure ScanOutput where
  items : List Row
  lastEvaluatedKey : Row
deriving DecidableEq, Repr

/-- A scan (or query) descriptor (`dynamodb.ScanInput` /
`dynamodb.QueryInput`): the `Limit` field, which the iterators read and may
clear, plus all remaining fields bundled opaquely in `rest`. -/
structure ScanInput (α : Type) where
  limit : Option Int
  rest : α
deriving DecidableEq, Repr

/-- The `for _, i := range *outputItems` loop shared by `limitModifier` and the
inline limit handling of `ScanIterator`/`QueryIterator`: walks the page's
items incrementing `seen`, breaking as soon as `seen` exceeds `limit`.
Returns the updated `seen`, the admitted items, the loop's `added` flag (some
item was admitted) and its `broke` flag (the limit was exceeded). -/
def limitLoop (limit : Int) : Int → List Row → Int × List Row × Bool × Bool
  | seen, [] => (seen, [], false, false)
  | seen, i :: rest =>
    let seen1 := seen + 1
    if seen1 > limit then (seen1, [], false, true)
    else
      match limitLoop limit seen1 rest with
      | (seenR, itemsR, _addedR, brokeR) => (seenR, i :: itemsR, true, brokeR)

/-- One invocation of the closure returned by `limitModifier` (client.go):
given the captured `hasLimit`/`limit` and the running `seen` counter, trims the
page's items to the remaining budget.  Returns the updated `seen`, the page's
(possibly trimmed) items, and the closure's `(trimmed, exitEarly)` result;
when `exitEarly` is false the Go code leaves `*outputItems` unmodified, and
the caller stops without using them. -/
def limitModifierStep (hasLimit : Bool) (limit : Int) (seen : Int)
    (outputItems : List Row) : Int × List Row × Bool × Bool :=
  if hasLimit then
    match limitLoop limit seen outputItems with
    | (seen1, items1, added, broke) =>
      if seen1 > 0 ∧ added = false ∧ broke = true then (seen1, outputItems, broke, false)
      else (seen1, items1, broke, true)
  else (seen, outputItems, false, true)

/-- Page loop of `ScanIteratorV2` / `QueryIteratorV2` (client.go): empty pages
are skipped without touching the modifier; non-empty pages are trimmed via the
modifier; when the modifier signals no early exit the iteration stops with a
nil error; on a trimmed non-empty page `LastEvaluatedKey` is replaced by the
designated key fields of the last admitted item; the callback's error stops
iteration and is propagated.  Alongside the Go result the model returns the
trace of the outputs the callback was invoked with. -/
def scanPagesV2 (hasLimit : Bool) (limit : Int) (keys : List String)
    (fn : ScanOutput → Option GoErr) :
    Int → List ScanOutput → Option GoErr × List ScanOutput
  | _, [] => (none, [])
  | seen, page :: rest =>
    if page.items.length = 0 then scanPagesV2 hasLimit limit keys fn seen rest
    else
      match limitModifierStep hasLimit limit seen page.items with
      | (seen1, items1, trimmed, exitEarly) =>
        if exitEarly = false then (none, [])
        else
          let out : ScanOutput :=
            if items1.length > 0 ∧ trimmed = true then
              { items := items1, lastEvaluatedKey := extractFields (items1.getLastD []) keys }
            else
              { items := items1, lastEvaluatedKey := page.lastEvaluatedKey }
          match fn out with
          | some e => (some e, [out])
          | none =>
            match scanPagesV2 hasLimit limit keys fn seen1 rest with
            | (r, tr) => (r, out :: tr)

/-- Embedding of `ScanIteratorV2` (client.go): `limitModifier(&input.Limit)`
reads the client-side limit and clears the caller's `Limit` field when it was
set, then the pages are driven as in `scanPagesV2`.  The model returns the
caller-visible descriptor after the call, the Go error result, and the trace
of callback invocations; the transport-error path of `ScanPagesWithContext`
is not exercised (the page list stands for a successful page stream). -/
def scanIteratorV2 (input : ScanInput α) (keys : List String)
    (fn : ScanOutput → Option GoErr) (pages : List ScanOutput) :
    ScanInput α × Option GoErr × List ScanOutput :=
  let hasLimit := input.limit.isSome
  let limit := input.limit.getD 0
  let input1 := if hasLimit then { input with limit := none } else input
  (input1, scanPagesV2 hasLimit limit keys fn 0 pages)

/-- Embedding of `QueryIteratorV2` (client.go), whose body is the same code as
`ScanIteratorV2` over query pages; query pages are modelled by the same page
type. -/
def queryIteratorV2 (input : ScanInput α) (keys : List String)
    (fn : ScanOutput → Option GoErr) (pages : List ScanOutput) :
    ScanInput α × Option GoErr × List ScanOutput :=
  let hasLimit := input.limit.isSome
  let limit := input.limit.getD 0
  let input1 := if hasLimit then { input with limit := none } else input
  (input1, scanPagesV2 hasLimit limit keys fn 0 pages)

/-- Page loop of `ScanIterator` / `QueryIterator` (client.go): the same limit
loop inlined, with no empty-page skip, no `LastEvaluatedKey` rewriting, and
the same stop-on-exhausted-limit check. -/
def scanPagesV1 (hasLimit : Bool) (limit : Int)
    (fn : ScanOutput → Option GoErr) :
    Int → List ScanOutput → Option GoErr × List ScanOutput
  | _, [] => (none, [])
  | seen, page :: rest =>
    if hasLimit then
      match limitLoop limit seen page.items with
      | (seen1, items1, added, broke) =>
        if seen1 > 0 ∧ added = false ∧ broke = true then (none, [])
        else
          let out : ScanOutput := { page with items := items1 }
          match fn out with
          | some e => (some e, [out])
          | none =>
            match scanPagesV1 hasLimit limit fn seen1 rest with
            | (r, tr) => (r, out :: tr)
    else
      match fn page with
      | some e => (some e, [page])
      | none =>
        match scanPagesV1 hasLimit limit fn seen rest with
        | (r, tr) => (r, page :: tr)

/-- Embedding of `ScanIterator` (client.go): the function copies the
descriptor (`in2 := *input`), clears the limit on the copy only, and drives
the pages with the copied descriptor; the caller's descriptor is returned
unchanged, mirroring the pass-by-value copy in the source. -/
def scanIterator (input : ScanInput α) (fn : ScanOutput → Option GoErr)
    (pages : List ScanOutput) :
    ScanInput α × Option GoErr × List ScanOutput :=
  let hasLimit := input.limit.isSome
  let limit := input.limit.getD 0
  (input, scanPagesV1 hasLimit limit fn 0 pages)

/-- Embedding of `QueryIterator` (client.go), whose body is the same code as
`ScanIterator` over query pages. -/
def queryIterator (input : ScanInput α) (fn : ScanOutput → Option GoErr)
    (pages : List ScanOutput) :
    ScanInput α × Option GoErr × List ScanOutput :=
  let hasLimit := input.limit.isSome
  let limit := input.limit.getD 0
  (input, scanPagesV1 hasLimit limit fn 0 pages)

/-- Contents of a destination table: an association list from primary-key map
to stored item, in insertion order. -/
abbrev TableData := List (Row × Row)

/-- Modelled from the spec: the destination store's single-item put
(`PutItemWithContext`, issued by `onCopyData`).  The store itself is an
external collaborator not present in the repository; per the spec it applies
put-overwrite semantics keyed on the table's primary key ("put-overwrite
semantics", §4.3/§8): an existing entry with the item's key is overwritten in
place, otherwise the item is appended. -/
def putItemStore (keyFields : List String) (t : TableData) (item : Row) : TableData :=
  let k := extractFields item keyFields
  if t.any fun p => p.1 = k then
    t.map fun p => if p.1 = k then (k, item) else p
  else t ++ [(k, item)]

/-- Data movement of `CopyTable` (client.go): every row scanned from the
source table is put exactly once into the destination via a single-item write
(the producer funnels each scanned item into `dataChan`, and a
`copyTableWorker` applies `onCopyData`, i.e. one `PutItemWithContext`, to it).
`rows` lists the source rows in the order the puts reach the store. -/
def copyTableRows (keyFields : List String) (rows : List Row) (dst : TableData) : TableData :=
  rows.foldl (putItemStore keyFields) dst

/-- Key column of each entry of a destination table. -/
def keysOf (t : TableData) : List Row := t.map Prod.fst

/-- Some row of `rows` has `k` as its extracted primary key. -/
def writesKey (keyFields : List String) (rows : List Row) (k : Row) : Prop :=
  ∃ r ∈ rows, extractFields r keyFields = k

/-- Masks the stored value at key `k`, leaving everything else intact; two
tables are equal up to the values stored at `k` iff their masked images are
equal. -/
def maskAt (k : Row) (p : Row × Row) : Row × Row :=
  if p.1 = k then (k, []) else p

/-- Table equality up to the values stored at key `k`. -/
def EqExcept (k : Row) (t1 t2 : TableData) : Prop :=
  t1.map (maskAt k) = t2.map (maskAt k)

theorem chunkGo_flatten (fuel : Nat) :
    ∀ l : List α, l.length ≤ fuel → (chunkGo fuel l).flatten = l := by
  induction fuel with
  | zero =>
    intro l h
    have hl : l = [] := List.eq_nil_of_length_eq_zero (Nat.le_zero.mp h)
    subst hl
    rfl
  | succ fuel ih =>
    intro l h
    cases l with
    | nil => rfl
    | cons a l =>
      have hdrop : ((a :: l).drop 25).length ≤ fuel := by
        simp only [List.length_drop, List.length_cons] at h ⊢
        omega
      simp only [chunkGo, List.flatten_cons, ih _ hdrop, List.take_append_drop]

theorem chunkGo_count (fuel : Nat) :
    ∀ l : List α, l.length ≤ fuel → (chunkGo fuel l).length = (l.length + 24) / 25 := by
  induction fuel with
  | zero =>
    intro l h
    have hl : l = [] := List.eq_nil_of_length_eq_zero (Nat.le_zero.mp h)
    subst hl
    simp only [chunkGo, List.length_nil]
  | succ fuel ih =>
    intro l h
    cases l with
    | nil =>
      simp only [chunkGo, List.length_nil]
    | cons a l =>
      have hdrop : ((a :: l).drop 25).length ≤ fuel := by
        simp only [List.length_drop, List.length_cons] at h ⊢
        omega
      simp only [chunkGo, List.length_cons, ih _ hdrop, List.length_drop]
      omega

theorem chunkGo_sizes (fuel : Nat) :
    ∀ l : List α, ((chunkGo fuel l).all fun c => decide (c.length ≤ 25)) = true := by
  induction fuel with
  | zero => intro l; cases l <;> rfl
  | succ fuel ih =>
    intro l
    cases l with
    | nil => rfl
    | cons a l =>
      simp only [chunkGo, List.all_cons, ih, Bool.and_true, decide_eq_true_eq,
        List.length_take]
      omega

/-- C7: for every input list of N write requests, `ChunkWriteRequests`
produces ⌈N/25⌉ groups, each of size at most 25, whose in-order concatenation
equals the original list; in particular 57 requests yield groups of sizes
[25, 25, 7]. -/
theorem C7_chunkWriteRequests_spec (l : List α) :
    (chunkWriteRequests l).length = (l.length + 24) / 25 ∧
    ((chunkWriteRequests l).all fun c => decide (c.length ≤ 25)) = true ∧
    (chunkWriteRequests l).flatten = l ∧
    ((chunkWriteRequests ((List.range 57).map fun i =>
        WriteReq.put [("N", Attr.n i)])).map List.length) = [25, 25, 7] :=
  ⟨chunkGo_count l.length l le_rfl, chunkGo_sizes l.length l,
    chunkGo_flatten l.length l le_rfl, by rfl⟩

/-- C1: the claimed invariant (written count plus unprocessed resubmissions
equals the number submitted, hence written count = N against a store stub
reporting K unprocessed once) fails in the code: `BatchWriter` subtracts
`len(out.UnprocessedItems)` — the number of tables in the map, not the number
of unprocessed requests.  Submitting N = 2 requests against the stub that
reports both of them (K = 2, one table) unprocessed on the first call and none
thereafter makes exactly two store calls and returns a written count of 3 with
a nil error, not the claimed 2. -/
theorem C1_batchWriter_overcounts_unprocessed :
    batchWriter (stubStore 2) 10 0 "t"
      [WriteReq.put [("PK", Attr.n 1)], WriteReq.put [("PK", Attr.n 2)]] =
      (2, 3, none) ∧ (3 : Int) ≠ (2 : Int) :=
  ⟨rfl, by decide⟩

/-- C3 counterexample: `CopyTable` does not run its producer scan with the
callback serialized — the literal `true` it passes is the `noLock` parameter,
so `parallelScanWorker` takes the branch that invokes the callback without
the shared mutex. -/
theorem C3_copyTable_callback_not_under_mutex :
    ¬ parallelScanCallbackMode copyTableNoLockArg = CallbackMode.withMutex := by
  decide

/-- C3 amended: `CopyTable` passes `noLock = true` to `ParallelScanIterator`,
so the per-page callback funneling rows into the channel runs without the
shared mutex (concurrently across workers); the mutex-serialized mode is taken
exactly when `noLock` is false. -/
theorem C3_copyTable_noLock_true :
    copyTableNoLockArg = true ∧
    parallelScanCallbackMode copyTableNoLockArg = CallbackMode.withoutMutex ∧
    ∀ b, (parallelScanCallbackMode b = CallbackMode.withMutex ↔ b = false) := by
  decide

/-- C4 counterexample: for `CopyTable` the error channel is not single-slot
(its capacity is the worker count, here 2) and the writer worker's error send
in `onCopyData` has no `default` case, so with the channel full and the
context not yet done the send blocks instead of being dropped. -/
theorem C4_copyTable_error_channel_not_single_slot :
    ¬ (errChanCapCopyTable 2 = 1 ∧
        sendBlocks onCopyDataErrSendStyle true false = false) := by
  decide

/-- C4 amended: `ParallelScanIterator` uses a single-slot error channel with
non-blocking, discard-on-full sends in its workers; `CopyTable` instead
creates an error channel of capacity equal to the worker count, and both the
writer worker (`onCopyData`) and the producer perform sends without a
`default` case, which block while the channel is full and the context is not
yet done. -/
theorem C4_error_channel_semantics (workers : Nat) (full ctxDone : Bool) :
    errChanCapParallelScan workers = 1 ∧
    sendBlocks parallelScanWorkerCallbackErrSendStyle full ctxDone = false ∧
    sendBlocks parallelScanWorkerIterErrSendStyle full ctxDone = false ∧
    errChanCapCopyTable workers = workers ∧
    sendBlocks onCopyDataErrSendStyle true false = true ∧
    sendBlocks copyTableProducerErrSendStyle true false = true :=
  ⟨rfl, rfl, rfl, rfl, rfl, rfl⟩

/-- C6 counterexample: a page row that is missing the required key field "SK"
does not produce a configuration error — `QueryDeleter`/`ScanDeleter` still
build (and submit) a delete request whose key contains only the fields that
were present. -/
theorem C6_incomplete_key_request_issued :
    deleterPageRequests (fieldsExtractor ["PK", "SK"]) [[("PK", Attr.s "a")]] =
      [WriteReq.delete [("PK", Attr.s "a")]] ∧
    lookupField [("PK", Attr.s "a")] "SK" = none ∧
    deleterPageRequests (fieldsExtractor ["PK", "SK"]) [[("PK", Attr.s "a")]] ≠ [] := by
  refine ⟨rfl, rfl, ?_⟩
  decide

/-- C6 amended: no eager key validation happens — `extractFields` silently
omits fields absent from the row (its result holds exactly the requested
fields that are present), and the deleters build one delete request per row
of the page unconditionally, keyed by whatever the extractor returned. -/
theorem C6_no_eager_key_validation (data : Row) (fields : List String)
    (f : String) (v : Attr) (keyFn : Row → Row) (items : List Row) :
    ((f, v) ∈ extractFields data fields ↔ f ∈ fields ∧ lookupField data f = some v) ∧
    (deleterPageRequests keyFn items).length = items.length ∧
    deleterPageRequests keyFn items = items.map fun attrs => WriteReq.delete (keyFn attrs) := by
  refine ⟨?_, by simp [deleterPageRequests], rfl⟩
  simp only [extractFields, List.mem_filterMap, Option.map_eq_some']
  constructor
  · rintro ⟨a, ha, w, hw, heq⟩
    obtain ⟨rfl, rfl⟩ := Prod.mk.injEq .. ▸ heq
    exact ⟨ha, hw⟩
  · rintro ⟨hf, hv⟩
    exact ⟨f, hf, v, hv, rfl⟩

/-- C5: with a client-side limit of 15 over three pages of 10 rows each, the
V2 scan iterator invokes its callback exactly twice — first with the full
first page, then with the second page trimmed to 5 rows — and on the trimmed
page replaces `LastEvaluatedKey` by the designated key fields of the 15th
row, which are non-empty whenever that row carries a designated key field. -/
theorem C5_scanIteratorV2_limit_fifteen {α : Type} (r : Nat → Row)
    (keys : List String) (lek1 lek2 lek3 : Row) (restA : α)
    (h : extractFields (r 15) keys ≠ []) :
    scanIteratorV2 (⟨some 15, restA⟩ : ScanInput α) keys (fun _ => none)
      [⟨(List.range 10).map (fun i => r (i + 1)), lek1⟩,
       ⟨(List.range 10).map (fun i => r (i + 11)), lek2⟩,
       ⟨(List.range 10).map (fun i => r (i + 21)), lek3⟩] =
    (⟨none, restA⟩, none,
      [⟨(List.range 10).map (fun i => r (i + 1)), lek1⟩,
       ⟨(List.range 5).map (fun i => r (i + 11)), extractFields (r 15) keys⟩]) ∧
    extractFields (r 15) keys ≠ [] :=
  ⟨rfl, h⟩

/-- C5 witness: the scenario instantiated with rows keyed by a "PK" column. -/
theorem C5_scanIteratorV2_limit_fifteen_witness :
    scanIteratorV2 (⟨some 15, 0⟩ : ScanInput Nat) ["PK"] (fun _ => none)
      [⟨(List.range 10).map (fun i => [("PK", Attr.n (i + 1))]), []⟩,
       ⟨(List.range 10).map (fun i => [("PK", Attr.n (i + 11))]), []⟩,
       ⟨(List.range 10).map (fun i => [("PK", Attr.n (i + 21))]), []⟩] =
    (⟨none, 0⟩, none,
      [⟨(List.range 10).map (fun i => [("PK", Attr.n (i + 1))]), []⟩,
       ⟨(List.range 5).map (fun i => [("PK", Attr.n (i + 11))]),
        extractFields [("PK", Attr.n 15)] ["PK"]⟩]) ∧
    extractFields [("PK", Attr.n 15)] ["PK"] ≠ [] :=
  C5_scanIteratorV2_limit_fifteen (fun i => [("PK", Attr.n i)]) ["PK"] [] [] [] 0
    (by decide)

theorem limitLoop_within_budget (items : List Row) : ∀ limit seen : Int,
    seen + items.length ≤ limit →
    limitLoop limit seen items = (seen + items.length, items, !items.isEmpty, false) := by
  induction items with
  | nil =>
    intro limit seen h
    simp [limitLoop]
  | cons i rest ih =>
    intro limit seen h
    have hlen : ((i :: rest).length : Int) = (rest.length : Int) + 1 := by
      simp [List.length_cons]
    have hne : ¬ seen + 1 > limit := by
      have hr : (0 : Int) ≤ (rest.length : Int) := Int.natCast_nonneg _
      omega
    rw [limitLoop]
    simp only [if_neg hne, ih limit (seen + 1) (by omega)]
    simp only [List.isEmpty_cons, Bool.not_false]
    refine Prod.ext ?_ (Prod.ext rfl rfl)
    simp only
    omega

/-- C8: when the client-side limit is exhausted exactly on a page boundary —
the first page admits exactly `limit` rows — the V2 scan iterator stops before
the next non-empty page: the callback runs once, for the first page only, no
trailing empty page is delivered, and the iterator reports no error. -/
theorem C8_limit_exact_page_boundary {α : Type} (inp : ScanInput α)
    (limit : Int) (p1 p2 : ScanOutput) (pages : List ScanOutput)
    (keys : List String) (fn : ScanOutput → Option GoErr)
    (hlim : inp.limit = some limit)
    (hlen : (p1.items.length : Int) = limit)
    (hp1 : p1.items ≠ [])
    (hp2 : p2.items ≠ [])
    (hfn : fn { items := p1.items, lastEvaluatedKey := p1.lastEvaluatedKey } = none) :
    (scanIteratorV2 inp keys fn (p1 :: p2 :: pages)).2 =
      (none, [{ items := p1.items, lastEvaluatedKey := p1.lastEvaluatedKey }]) := by
  have hpos : 0 < p1.items.length := List.length_pos.mpr hp1
  have hlpos : (0 : Int) < limit := by omega
  have hloop1 : limitLoop limit 0 p1.items =
      (limit, p1.items, !p1.items.isEmpty, false) := by
    have := limitLoop_within_budget p1.items limit 0 (by omega)
    simpa [hlen] using this
  obtain ⟨a2, rest2, hsplit⟩ := List.exists_cons_of_ne_nil hp2
  have hstep1 : limitModifierStep true limit 0 p1.items =
      (limit, p1.items, false, true) := by
    rw [limitModifierStep, if_pos rfl, hloop1]
    simp
  have hstep2 : limitModifierStep true limit limit p2.items =
      (limit + 1, p2.items, true, false) := by
    rw [limitModifierStep, if_pos rfl, hsplit, limitLoop]
    have hgt : limit + 1 > limit := by omega
    have hgt0 : limit + 1 > 0 := by omega
    simp [hgt, hgt0]
  have h2 : scanPagesV2 true limit keys fn limit (p2 :: pages) = (none, []) := by
    rw [scanPagesV2]
    rw [if_neg (by simpa [List.length_eq_zero] using hp2), hstep2]
    simp
  have h1 : scanPagesV2 true limit keys fn 0 (p1 :: p2 :: pages) =
      (none, [{ items := p1.items, lastEvaluatedKey := p1.lastEvaluatedKey }]) := by
    rw [scanPagesV2]
    rw [if_neg (by simpa [List.length_eq_zero] using hp1), hstep1]
    simp only [if_neg (by simp : ¬ (true = false))]
    rw [if_neg (by simp)]
    rw [hfn, h2]
  simp only [scanIteratorV2, hlim]
  simpa using h1

/-- C8 witness: limit 2 over a first page of exactly 2 rows followed by a
non-empty page — one callback invocation, no error. -/
theorem C8_limit_exact_page_boundary_witness :
    (scanIteratorV2 (⟨some 2, 0⟩ : ScanInput Nat) ["PK"] (fun _ => none)
      [⟨[[("PK", Attr.n 1)], [("PK", Attr.n 2)]], []⟩, ⟨[[("PK", Attr.n 3)]], []⟩]).2 =
      (none, [{ items := [[("PK", Attr.n 1)], [("PK", Attr.n 2)]],
                lastEvaluatedKey := [] }]) :=
  C8_limit_exact_page_boundary (⟨some 2, 0⟩ : ScanInput Nat) 2
    ⟨[[("PK", Attr.n 1)], [("PK", Attr.n 2)]], []⟩ ⟨[[("PK", Attr.n 3)]], []⟩ []
    ["PK"] (fun _ => none) rfl (by decide) (by decide) (by decide) rfl

/-- C10: when the caller's descriptor carries a client-side limit, the V2
iterators clear the caller's `Limit` field as a side effect (the shared
descriptor is mutated before paging), while the V1 iterators copy the
descriptor and leave every field of the caller's descriptor unchanged. -/
theorem C10_limit_field_frame {α : Type} (inp inpB : ScanInput α) (l : Int)
    (keys : List String) (fn fnB : ScanOutput → Option GoErr)
    (pages pagesB : List ScanOutput)
    (h : inp.limit = some l) :
    (scanIteratorV2 inp keys fn pages).1 = { inp with limit := none } ∧
    (queryIteratorV2 inp keys fn pages).1 = { inp with limit := none } ∧
    (scanIteratorV2 inp keys fn pages).1.limit = none ∧
    (scanIterator inpB fnB pagesB).1 = inpB ∧
    (queryIterator inpB fnB pagesB).1 = inpB := by
  refine ⟨?_, ?_, ?_, rfl, rfl⟩ <;> simp [scanIteratorV2, queryIteratorV2, h]

/-- C10 witness: a concrete descriptor with limit 5 is returned with its limit
cleared by the V2 iterator and untouched by the V1 iterator. -/
theorem C10_limit_field_frame_witness :
    (scanIteratorV2 (⟨some 5, 7⟩ : ScanInput Nat) ["PK"] (fun _ => none) []).1 =
      { (⟨some 5, 7⟩ : ScanInput Nat) with limit := none } ∧
    (queryIteratorV2 (⟨some 5, 7⟩ : ScanInput Nat) ["PK"] (fun _ => none) []).1 =
      { (⟨some 5, 7⟩ : ScanInput Nat) with limit := none } ∧
    (scanIteratorV2 (⟨some 5, 7⟩ : ScanInput Nat) ["PK"] (fun _ => none) []).1.limit = none ∧
    (scanIterator (⟨some 5, 7⟩ : ScanInput Nat) (fun _ => none) []).1 =
      (⟨some 5, 7⟩ : ScanInput Nat) ∧
    (queryIterator (⟨some 5, 7⟩ : ScanInput Nat) (fun _ => none) []).1 =
      (⟨some 5, 7⟩ : ScanInput Nat) :=
  C10_limit_field_frame (⟨some 5, 7⟩ : ScanInput Nat) (⟨some 5, 7⟩ : ScanInput Nat) 5
    ["PK"] (fun _ => none) (fun _ => none) [] [] rfl

theorem copyTableRows_cons (kf : List String) (r : Row) (rs : List Row)
    (t : TableData) :
    copyTableRows kf (r :: rs) t = copyTableRows kf rs (putItemStore kf t r) := rfl

theorem any_key_eq_true_iff (t : TableData) (k : Row) :
    (t.any fun p => p.1 = k) = true ↔ k ∈ keysOf t := by
  simp only [List.any_eq_true, decide_eq_true_eq, keysOf, List.mem_map]

theorem keysOf_putItemStore_in_place (kf : List String) (t : TableData) (r : Row)
    (hany : (t.any fun p => p.1 = extractFields r kf) = true) :
    keysOf (putItemStore kf t r) = keysOf t := by
  rw [putItemStore]
  simp only [hany, if_true]
  rw [keysOf, keysOf, List.map_map]
  refine List.map_congr_left ?_
  intro p _
  by_cases hp : p.1 = extractFields r kf
  · simp [Function.comp, hp]
  · simp [Function.comp, hp]

theorem keysOf_putItemStore_append (kf : List String) (t : TableData) (r : Row)
    (hany : ¬ (t.any fun p => p.1 = extractFields r kf) = true) :
    keysOf (putItemStore kf t r) = keysOf t ++ [extractFields r kf] := by
  rw [putItemStore]
  simp only [hany, if_false]
  simp [keysOf]

theorem mem_keysOf_putItemStore (kf : List String) (t : TableData) (r : Row)
    (k : Row) (h : k ∈ keysOf t) : k ∈ keysOf (putItemStore kf t r) := by
  by_cases hany : (t.any fun p => p.1 = extractFields r kf) = true
  · rw [keysOf_putItemStore_in_place kf t r hany]
    exact h
  · rw [keysOf_putItemStore_append kf t r hany]
    exact List.mem_append_left _ h

theorem self_mem_keysOf_putItemStore (kf : List String) (t : TableData) (r : Row) :
    extractFields r kf ∈ keysOf (putItemStore kf t r) := by
  by_cases hany : (t.any fun p => p.1 = extractFields r kf) = true
  · rw [keysOf_putItemStore_in_place kf t r hany]
    exact (any_key_eq_true_iff t _).mp hany
  · rw [keysOf_putItemStore_append kf t r hany]
    exact List.mem_append_right _ (List.mem_singleton_self _)

theorem mem_keysOf_copyTableRows (kf : List String) (rows : List Row) :
    ∀ (t : TableData) (k : Row), k ∈ keysOf t → k ∈ keysOf (copyTableRows kf rows t) := by
  induction rows with
  | nil => intro t k h; exact h
  | cons r rs ih =>
    intro t k h
    rw [copyTableRows_cons]
    exact ih _ _ (mem_keysOf_putItemStore kf t r k h)

theorem entries_putItemStore_ne (kf : List String) (t : TableData) (r : Row)
    (k : Row) (hk : extractFields r kf ≠ k) (p : Row × Row)
    (hp : p ∈ putItemStore kf t r) (hfst : p.1 = k) : p ∈ t := by
  rw [putItemStore] at hp
  split at hp
  · simp only [List.mem_map] at hp
    obtain ⟨q, hq, hpq⟩ := hp
    by_cases hq1 : q.1 = extractFields r kf
    · rw [if_pos hq1] at hpq
      rw [← hpq] at hfst
      exact absurd hfst hk
    · rw [if_neg hq1] at hpq
      exact hpq ▸ hq
  · rcases List.mem_append.mp hp with h | h
    · exact h
    · simp only [List.mem_singleton] at h
      rw [h] at hfst
      exact absurd hfst hk

theorem entries_putItemStore_at_key (kf : List String) (t : TableData) (r : Row)
    (p : Row × Row) (hp : p ∈ putItemStore kf t r)
    (hfst : p.1 = extractFields r kf) : p = (extractFields r kf, r) := by
  rw [putItemStore] at hp
  split at hp
  · simp only [List.mem_map] at hp
    obtain ⟨q, hq, hpq⟩ := hp
    by_cases hq1 : q.1 = extractFields r kf
    · rw [if_pos hq1] at hpq
      exact hpq.symm
    · rw [if_neg hq1] at hpq
      exact absurd (hpq ▸ hfst) hq1
  · next hany =>
    rcases List.mem_append.mp hp with h | h
    · exfalso
      apply hany
      rw [any_key_eq_true_iff, ← hfst]
      exact List.mem_map_of_mem _ h
    · simpa using h

theorem entries_copyTableRows_unwritten (kf : List String) (rows : List Row)
    (k : Row) (v : Row) (hw : ¬ writesKey kf rows k) :
    ∀ (t : TableData), (∀ p ∈ t, p.1 = k → p = (k, v)) →
      ∀ p ∈ copyTableRows kf rows t, p.1 = k → p = (k, v) := by
  induction rows with
  | nil => intro t ht; exact ht
  | cons r rs ih =>
    intro t ht
    have hk : extractFields r kf ≠ k := by
      intro hcon
      exact hw ⟨r, List.mem_cons_self r rs, hcon⟩
    have hw2 : ¬ writesKey kf rs k := by
      rintro ⟨r2, hr2, hr2k⟩
      exact hw ⟨r2, List.mem_cons_of_mem _ hr2, hr2k⟩
    rw [copyTableRows_cons]
    refine ih hw2 _ ?_
    intro p hp hfst
    exact ht p (entries_putItemStore_ne kf t r k hk p hp hfst) hfst

theorem putItemStore_eq_self (kf : List String) (t : TableData) (r : Row)
    (hmem : extractFields r kf ∈ keysOf t)
    (hvals : ∀ p ∈ t, p.1 = extractFields r kf → p = (extractFields r kf, r)) :
    putItemStore kf t r = t := by
  rw [putItemStore]
  rw [if_pos ((any_key_eq_true_iff t _).mpr hmem)]
  conv_rhs => rw [← List.map_id t]
  refine List.map_congr_left ?_
  intro q hq
  by_cases hq1 : q.1 = extractFields r kf
  · rw [if_pos hq1, hvals q hq hq1]
    rfl
  · rw [if_neg hq1]
    rfl

theorem maskAt_fst (k : Row) (p : Row × Row) : (maskAt k p).1 = p.1 := by
  by_cases hp : p.1 = k <;> simp [maskAt, hp]

theorem keysOf_eq_of_eqExcept (k : Row) (t1 t2 : TableData)
    (h : EqExcept k t1 t2) : keysOf t1 = keysOf t2 := by
  have hmask : ∀ t : TableData, keysOf t = (t.map (maskAt k)).map Prod.fst := by
    intro t
    rw [List.map_map]
    refine List.map_congr_left ?_
    intro p _
    exact (maskAt_fst k p).symm
  rw [hmask t1, hmask t2, h]

theorem map_maskAt_eq_self (k : Row) (t : TableData) (h : k ∉ keysOf t) :
    t.map (maskAt k) = t := by
  conv_rhs => rw [← List.map_id t]
  refine List.map_congr_left ?_
  intro p hp
  have hne : ¬ p.1 = k := by
    intro hcon
    exact h (hcon ▸ List.mem_map_of_mem _ hp)
  simp [maskAt, hne]

theorem eqExcept_putItemStore_same (kf : List String) (X : TableData) (r : Row)
    (k : Row) (hk : extractFields r kf = k) (hmem : k ∈ keysOf X) :
    EqExcept k (putItemStore kf X r) X := by
  rw [EqExcept, putItemStore, hk]
  rw [if_pos ((any_key_eq_true_iff X _).mpr hmem)]
  rw [List.map_map]
  refine List.map_congr_left ?_
  intro p _
  by_cases hp : p.1 = k <;> simp [Function.comp, maskAt, hp]

theorem eqExcept_putItemStore (kf : List String) (X1 X2 : TableData) (r : Row)
    (k : Row) (h : EqExcept k X1 X2) :
    EqExcept k (putItemStore kf X1 r) (putItemStore kf X2 r) := by
  have hkeys : keysOf X1 = keysOf X2 := keysOf_eq_of_eqExcept k X1 X2 h
  have hany : (X1.any fun p => p.1 = extractFields r kf) =
      (X2.any fun p => p.1 = extractFields r kf) := by
    by_cases h1 : (X1.any fun p => p.1 = extractFields r kf) = true
    · rw [h1]
      symm
      rw [any_key_eq_true_iff, ← hkeys, ← any_key_eq_true_iff]
      exact h1
    · rw [Bool.not_eq_true] at h1
      rw [h1]
      symm
      rw [← Bool.not_eq_true, any_key_eq_true_iff, ← hkeys, ← any_key_eq_true_iff,
        Bool.not_eq_true]
      exact h1
  rw [EqExcept, putItemStore, putItemStore, ← hany]
  by_cases hcase : (X1.any fun p => p.1 = extractFields r kf) = true
  · rw [if_pos hcase, if_pos hcase]
    rw [List.map_map, List.map_map]
    have hfact : ∀ X : TableData,
        (X.map (maskAt k ∘ fun p =>
          if p.1 = extractFields r kf then (extractFields r kf, r) else p)) =
        ((X.map (maskAt k)).map (maskAt k ∘ fun p =>
          if p.1 = extractFields r kf then (extractFields r kf, r) else p)) := by
      intro X
      rw [List.map_map]
      refine List.map_congr_left ?_
      intro p _
      by_cases hp : p.1 = k <;> by_cases hq : p.1 = extractFields r kf <;>
        by_cases hkk : extractFields r kf = k <;>
        simp [Function.comp, maskAt, hp, hq, hkk] <;>
        simp_all
    rw [hfact X1, hfact X2, h]
  · rw [if_neg hcase, if_neg hcase]
    rw [List.map_append, List.map_append, h]

theorem putItemStore_congr (kf : List String) (X1 X2 : TableData) (r : Row)
    (k : Row) (hk : extractFields r kf = k) (h : EqExcept k X1 X2) :
    putItemStore kf X1 r = putItemStore kf X2 r := by
  have hkeys : keysOf X1 = keysOf X2 := keysOf_eq_of_eqExcept k X1 X2 h
  rw [putItemStore, putItemStore, hk]
  by_cases hcase : (X1.any fun p => p.1 = k) = true
  · have hcase2 : (X2.any fun p => p.1 = k) = true := by
      rw [any_key_eq_true_iff, ← hkeys, ← any_key_eq_true_iff]
      exact hcase
    rw [if_pos hcase, if_pos hcase2]
    have hfact : ∀ X : TableData,
        (X.map fun p => if p.1 = k then (k, r) else p) =
        ((X.map (maskAt k)).map fun p => if p.1 = k then (k, r) else p) := by
      intro X
      rw [List.map_map]
      refine List.map_congr_left ?_
      intro p _
      by_cases hp : p.1 = k <;> simp [Function.comp, maskAt, hp]
    rw [hfact X1, hfact X2, h]
  · have hcase2 : ¬ (X2.any fun p => p.1 = k) = true := by
      rw [any_key_eq_true_iff, ← hkeys, ← any_key_eq_true_iff]
      exact hcase
    have hX : X1 = X2 := by
      have hnk1 : k ∉ keysOf X1 := fun hcon =>
        hcase ((any_key_eq_true_iff X1 k).mpr hcon)
      have hnk2 : k ∉ keysOf X2 := fun hcon =>
        hcase2 ((any_key_eq_true_iff X2 k).mpr hcon)
      rw [← map_maskAt_eq_self k X1 hnk1, ← map_maskAt_eq_self k X2 hnk2]
      exact h
    rw [if_neg hcase, if_neg hcase2, hX]

theorem copyTableRows_congr (kf : List String) (rows : List Row) (k : Row) :
    writesKey kf rows k → ∀ (X1 X2 : TableData), EqExcept k X1 X2 →
      copyTableRows kf rows X1 = copyTableRows kf rows X2 := by
  induction rows with
  | nil => rintro ⟨r, hr, _⟩; exact absurd hr (List.not_mem_nil r)
  | cons r rs ih =>
    rintro hw X1 X2 h
    rw [copyTableRows_cons, copyTableRows_cons]
    by_cases hk : extractFields r kf = k
    · rw [putItemStore_congr kf X1 X2 r k hk h]
    · have hw2 : writesKey kf rs k := by
        obtain ⟨r2, hr2, hr2k⟩ := hw
        rcases List.mem_cons.mp hr2 with hr2 | hr2
        · exact absurd (hr2 ▸ hr2k) hk
        · exact ⟨r2, hr2, hr2k⟩
      exact ih hw2 _ _ (eqExcept_putItemStore kf X1 X2 r k h)

theorem copyTableRows_idem (kf : List String) (rows : List Row) :
    ∀ t : TableData, copyTableRows kf rows (copyTableRows kf rows t) =
      copyTableRows kf rows t := by
  induction rows with
  | nil => intro t; rfl
  | cons r rs ih =>
    intro t
    simp only [copyTableRows_cons]
    have hkA : extractFields r kf ∈
        keysOf (copyTableRows kf rs (putItemStore kf t r)) :=
      mem_keysOf_copyTableRows kf rs _ _ (self_mem_keysOf_putItemStore kf t r)
    by_cases hw : writesKey kf rs (extractFields r kf)
    · have h1 : EqExcept (extractFields r kf)
          (putItemStore kf (copyTableRows kf rs (putItemStore kf t r)) r)
          (copyTableRows kf rs (putItemStore kf t r)) :=
        eqExcept_putItemStore_same kf _ r _ rfl hkA
      rw [copyTableRows_congr kf rs _ hw _ _ h1]
      exact ih (putItemStore kf t r)
    · have hvals : ∀ p ∈ copyTableRows kf rs (putItemStore kf t r),
          p.1 = extractFields r kf → p = (extractFields r kf, r) :=
        entries_copyTableRows_unwritten kf rs _ r hw (putItemStore kf t r)
          (fun p hp hfst => entries_putItemStore_at_key kf t r p hp hfst)
      rw [putItemStore_eq_self kf _ r hkA hvals]
      exact ih (putItemStore kf t r)

/-- C9: re-running the copy of the same source rows into the same destination
leaves the destination unchanged — put-overwrite semantics keyed on the
primary key make `CopyTable` idempotent — and concretely, copying a 10-row
source into an empty destination twice leaves exactly 10 rows, not 20. -/
theorem C9_copyTable_idempotent :
    (∀ (keyFields : List String) (rows : List Row) (dst : TableData),
        copyTableRows keyFields rows (copyTableRows keyFields rows dst) =
          copyTableRows keyFields rows dst) ∧
    (copyTableRows ["PK"]
      ((List.range 10).map fun i => [("PK", Attr.n i), ("V", Attr.s "x")]) []).length = 10 ∧
    (copyTableRows ["PK"]
      ((List.range 10).map fun i => [("PK", Attr.n i), ("V", Attr.s "x")])
      (copyTableRows ["PK"]
        ((List.range 10).map fun i => [("PK", Attr.n i), ("V", Attr.s "x")]) [])).length = 10 :=
  ⟨fun kf rows dst => copyTableRows_idem kf rows dst, by decide, by decide⟩

end Dyc


